import Mathlib

/-!
Verification of the structured-data generator / anonymizer core of
my-data-toolbox, together with the surrounding code that is present in the
repository sources: the Electron `generate-data` handler (electron/main.js),
the web API client (`src/lib/api-client.ts`), the OpenAPI schema inference of
the Swagger view (`src/components/views/swagger-view.tsx`) and the option
sanitization of the random-JSON view
(`src/components/views/random-json-view.tsx`).

The Python backend (cli_generate.py / data_generator.py / data_anonymizer.py
and the `/api/*` serverless functions) is not part of the available sources;
the definitions below that embed it are marked `Modelled from the spec:` and
follow the specification's description of the skeleton walker, the value
synthesizer, the sensitive-field classifier, the anonymizer and the random
document generator.

JSON documents are embedded as an inductive type; JSON numbers are embedded
as a numerator/denominator pair (`JNum`, denominator 1 for integers), which
is exact for every value the verified claims touch.
-/

/-- A JSON number: numerator and denominator (denominator 1 for integers).
JavaScript's `Number.isInteger` is embedded as `d = 1`. -/
structure JNum where
  n : Int
  d : Nat
deriving Repr, DecidableEq, Inhabited

/-- A parsed JSON document: the structural unit the spec calls
`SkeletonNode` / `Document` (object with insertion-ordered string keys,
array, or scalar). -/
inductive Json where
  | null
  | bool (b : Bool)
  | num (q : JNum)
  | str (s : String)
  | arr (xs : List Json)
  | obj (fs : List (String × Json))
deriving Inhabited

/-- Scalar test: a leaf of the document tree (neither object nor array). -/
def isScalarJ : Json → Bool
  | .arr _ => false
  | .obj _ => false
  | _ => true

mutual
/-- Structural equality of JSON values (syntactic, field order significant,
matching strict deep equality of the parsed representations). -/
def jeq : Json → Json → Bool
  | .null, .null => true
  | .bool a, .bool b => a == b
  | .num a, .num b => a == b
  | .str a, .str b => a == b
  | .arr a, .arr b => jeqArr a b
  | .obj a, .obj b => jeqObj a b
  | _, _ => false
def jeqArr : List Json → List Json → Bool
  | [], [] => true
  | a :: as, b :: bs => jeq a b && jeqArr as bs
  | _, _ => false
def jeqObj : List (String × Json) → List (String × Json) → Bool
  | [], [] => true
  | (k, v) :: as, (k2, v2) :: bs => k == k2 && jeq v v2 && jeqObj as bs
  | _, _ => false
end

/-- Induction over `Json` that hands the inductive hypothesis to every
member of a nested array / object, obtained by strong induction on size. -/
theorem Json.ind2 (P : Json → Prop)
    (hnull : P .null) (hbool : ∀ b, P (.bool b)) (hnum : ∀ q, P (.num q))
    (hstr : ∀ s, P (.str s))
    (harr : ∀ xs, (∀ x ∈ xs, P x) → P (.arr xs))
    (hobj : ∀ fs, (∀ kv ∈ fs, P kv.2) → P (.obj fs)) : ∀ j, P j := by
  have H : ∀ n j, sizeOf j ≤ n → P j := by
    intro n
    induction n with
    | zero => intro j hj; cases j <;> simp_all
    | succ n ih =>
      intro j hj
      cases j with
      | null => exact hnull
      | bool b => exact hbool b
      | num q => exact hnum q
      | str s => exact hstr s
      | arr xs =>
        refine harr xs (fun x hx => ih x ?_)
        have h1 := List.sizeOf_lt_of_mem hx
        simp only [Json.arr.sizeOf_spec] at hj
        omega
      | obj fs =>
        refine hobj fs (fun kv hkv => ih kv.2 ?_)
        have h1 := List.sizeOf_lt_of_mem hkv
        have h2 : sizeOf kv.2 < sizeOf kv := by
          cases kv with
          | mk a b => simp only [Prod.mk.sizeOf_spec]; omega
        simp only [Json.obj.sizeOf_spec] at hj
        omega
  exact fun j => H (sizeOf j) j le_rfl

theorem jeq_refl : ∀ j, jeq j j = true := by
  intro j
  induction j using Json.ind2 with
  | hnull => rfl
  | hbool b => simp [jeq]
  | hnum q => simp [jeq]
  | hstr s => simp [jeq]
  | harr xs ih =>
    simp only [jeq]
    induction xs with
    | nil => rfl
    | cons x xs ihxs =>
      simp only [jeqArr, Bool.and_eq_true]
      exact ⟨ih x (by simp), ihxs (fun y hy => ih y (by simp [hy]))⟩
  | hobj fs ih =>
    simp only [jeq]
    induction fs with
    | nil => rfl
    | cons kv fs ihfs =>
      match kv with
      | (k, v) =>
        simp only [jeqObj, Bool.and_eq_true, beq_self_eq_true, true_and]
        exact ⟨ih (k, v) (by simp), ihfs (fun y hy => ih y (by simp [hy]))⟩

mutual
theorem jeq_eq : ∀ a b, jeq a b = true → a = b
  | .null, .null, _ => rfl
  | .bool x, .bool y, h => by simp [jeq] at h; simp [h]
  | .num x, .num y, h => by simp [jeq] at h; simp [h]
  | .str x, .str y, h => by simp [jeq] at h; simp [h]
  | .arr x, .arr y, h => by simp [jeq] at h; simp [jeqArr_eq x y h]
  | .obj x, .obj y, h => by simp [jeq] at h; simp [jeqObj_eq x y h]
  | .null, .bool _, h => by simp [jeq] at h
  | .null, .num _, h => by simp [jeq] at h
  | .null, .str _, h => by simp [jeq] at h
  | .null, .arr _, h => by simp [jeq] at h
  | .null, .obj _, h => by simp [jeq] at h
  | .bool _, .null, h => by simp [jeq] at h
  | .bool _, .num _, h => by simp [jeq] at h
  | .bool _, .str _, h => by simp [jeq] at h
  | .bool _, .arr _, h => by simp [jeq] at h
  | .bool _, .obj _, h => by simp [jeq] at h
  | .num _, .null, h => by simp [jeq] at h
  | .num _, .bool _, h => by simp [jeq] at h
  | .num _, .str _, h => by simp [jeq] at h
  | .num _, .arr _, h => by simp [jeq] at h
  | .num _, .obj _, h => by simp [jeq] at h
  | .str _, .null, h => by simp [jeq] at h
  | .str _, .bool _, h => by simp [jeq] at h
  | .str _, .num _, h => by simp [jeq] at h
  | .str _, .arr _, h => by simp [jeq] at h
  | .str _, .obj _, h => by simp [jeq] at h
  | .arr _, .null, h => by simp [jeq] at h
  | .arr _, .bool _, h => by simp [jeq] at h
  | .arr _, .num _, h => by simp [jeq] at h
  | .arr _, .str _, h => by simp [jeq] at h
  | .arr _, .obj _, h => by simp [jeq] at h
  | .obj _, .null, h => by simp [jeq] at h
  | .obj _, .bool _, h => by simp [jeq] at h
  | .obj _, .num _, h => by simp [jeq] at h
  | .obj _, .str _, h => by simp [jeq] at h
  | .obj _, .arr _, h => by simp [jeq] at h
theorem jeqArr_eq : ∀ a b, jeqArr a b = true → a = b
  | [], [], _ => rfl
  | x :: xs, y :: ys, h => by
    simp only [jeqArr, Bool.and_eq_true] at h
    simp [jeq_eq x y h.1, jeqArr_eq xs ys h.2]
  | [], _ :: _, h => by simp [jeqArr] at h
  | _ :: _, [], h => by simp [jeqArr] at h
theorem jeqObj_eq : ∀ a b, jeqObj a b = true → a = b
  | [], [], _ => rfl
  | (k, v) :: xs, (k2, v2) :: ys, h => by
    simp only [jeqObj, Bool.and_eq_true] at h
    have hk : k = k2 := by have := h.1.1; simpa using this
    simp [hk, jeq_eq v v2 h.1.2, jeqObj_eq xs ys h.2]
  | [], _ :: _, h => by simp [jeqObj] at h
  | _ :: _, [], h => by simp [jeqObj] at h
end

instance : DecidableEq Json := fun a b =>
  decidable_of_iff (jeq a b = true) ⟨jeq_eq a b, fun h => h ▸ jeq_refl a⟩

/-! ### Character-level string helpers (kernel-evaluable) -/

/-- Lower-case a character list (case-insensitive key matching). -/
def lowerChars (l : List Char) : List Char := l.map Char.toLower

/-- Segment test `segIn hay pat`: `pat` occurs as a contiguous segment of `hay`
(the substring test used by the key-name pattern table). -/
def segIn : List Char → List Char → Bool
  | _, [] => true
  | [], _ :: _ => false
  | c :: cs, pat => pat.isPrefixOf (c :: cs) || segIn cs pat

/-- Case-insensitive substring match of a pattern against a field key. -/
def keyHas (key pat : String) : Bool :=
  segIn (lowerChars key.toList) pat.toList

/-! ### Pseudo-random source

Modelled from the spec: a seedable pseudo-random number generator threaded
explicitly through every generation call (one instance per top-level call);
a linear congruential step stands in for the backend's PRNG. -/

/-- One step of the pseudo-random source. -/
def lcgNext (st : Nat) : Nat := (1103515245 * st + 12345) % 2147483648

/-! ### Semantic categories and the sensitive-field classifier

Modelled from the spec: `SemanticCategory` (§3), key-name pattern table and
value-shape heuristics (§3, §4.5). The Python classifier
(data_anonymizer.py behind `/api/analyze` and `--analyze`) is not among the
available sources. -/

/-- Semantic category of a leaf (what kind of real-world value it holds). -/
inductive Category where
  | email | phone | name | address | date | uuid | integer | boolean
  | freeText | unknown
deriving Repr, DecidableEq, Inhabited

/-- Modelled from the spec: the ordered key-name pattern table of §3
(case-insensitive substring match: email→email, phone|tel→phone, name→name,
addr→address). -/
def keyCategory (k : String) : Option Category :=
  if keyHas k "email" then some .email
  else if keyHas k "phone" || keyHas k "tel" then some .phone
  else if keyHas k "name" then some .name
  else if keyHas k "addr" then some .address
  else none

/-- Modelled from the spec: value-shape heuristics of §4.5 applied to string
leaves (an email-shaped string, a phone-digit-count-shaped string). -/
def valueCategory : Json → Option Category
  | .str s =>
    let l := s.toList
    if l.contains '@' && l.contains '.' then some .email
    else if decide ((l.filter Char.isDigit).length ≥ 10) &&
        l.all (fun c => c.isDigit || c = '+' || c = '-' || c = ' ') then
      some .phone
    else none
  | _ => none

/-- Modelled from the spec: a leaf is sensitive when either the key-name
signal or the value-shape signal matches (§4.5); the key signal, when
present, fixes the category tag. -/
def leafCategory (key : Option String) (v : Json) : Option Category :=
  match key with
  | some k =>
    match keyCategory k with
    | some c => some c
    | none => valueCategory v
  | none => valueCategory v

/-! ### Paths into documents -/

/-- One step of a concrete path: an object key or an array index. -/
inductive Seg where
  | key (k : String)
  | idx (i : Nat)
deriving Repr, DecidableEq, Inhabited

/-- One step of a schema path: an object key or the array wildcard (§3:
array segments of constraint paths use a wildcard matching any index). -/
inductive PSeg where
  | key (k : String)
  | star
deriving Repr, DecidableEq, Inhabited

/-- Concrete path to schema path: array indices widen to the wildcard. -/
def widen (p : List Seg) : List PSeg :=
  p.map fun s => match s with
    | .key k => .key k
    | .idx _ => .star

/-- First field of a JSON object with the given key (JavaScript property
lookup on parsed JSON: keys are unique, the first match decides). -/
def lookupField : List (String × Json) → String → Option Json
  | [], _ => none
  | (k, v) :: fs, k2 => if k = k2 then some v else lookupField fs k2

/-- Value of a document at a concrete path (`none` when the path does not
exist in the document). -/
def getConcrete : List Seg → Json → Option Json
  | [], j => some j
  | .key k :: p, .obj fs =>
    match lookupField fs k with
    | some v => getConcrete p v
    | none => none
  | .key _ :: _, _ => none
  | .idx i :: p, .arr xs =>
    match xs.get? i with
    | some v => getConcrete p v
    | none => none
  | .idx _ :: _, _ => none

mutual
/-- Structural skeleton of a document: every scalar leaf collapses to
`null`, so two documents have the same `shape` exactly when they agree on
object key lists, array lengths and nesting. -/
def shape : Json → Json
  | .arr xs => .arr (shapeArr xs)
  | .obj fs => .obj (shapeObj fs)
  | _ => .null
def shapeArr : List Json → List Json
  | [] => []
  | x :: xs => shape x :: shapeArr xs
def shapeObj : List (String × Json) → List (String × Json)
  | [] => []
  | (k, v) :: fs => (k, shape v) :: shapeObj fs
end

/-! ### Sensitive-field classifier (walk)

Modelled from the spec: §4.5 — walk the document in traversal order; for
every scalar leaf apply the key-name table to the leaf's key and the
value-shape heuristics to its value; return the flagged paths in traversal
order. The key of a leaf is the nearest enclosing object key. -/

mutual
def classifyWalk (key : Option String) (path : List Seg) : Json → List (List Seg)
  | .arr xs => classifyArr key path 0 xs
  | .obj fs => classifyFields path fs
  | v => if (leafCategory key v).isSome then [path] else []
def classifyArr (key : Option String) (path : List Seg) (i : Nat) :
    List Json → List (List Seg)
  | [] => []
  | x :: xs =>
    classifyWalk key (path ++ [.idx i]) x ++ classifyArr key path (i + 1) xs
def classifyFields (path : List Seg) : List (String × Json) → List (List Seg)
  | [] => []
  | (k, v) :: fs =>
    classifyWalk (some k) (path ++ [.key k]) v ++ classifyFields path fs
end

/-- Modelled from the spec: `classify(document) -> list<SensitivePath>`. -/
def classify (d : Json) : List (List Seg) := classifyWalk none [] d

mutual
/-- Total number of scalar leaves of a document (the `totalFields` count). -/
def countLeaves : Json → Nat
  | .arr xs => countLeavesArr xs
  | .obj fs => countLeavesObj fs
  | _ => 1
def countLeavesArr : List Json → Nat
  | [] => 0
  | x :: xs => countLeaves x + countLeavesArr xs
def countLeavesObj : List (String × Json) → Nat
  | [] => 0
  | (_, v) :: fs => countLeaves v + countLeavesObj fs
end

/-! ### Value synthesizer

Modelled from the spec: §4.1 — one realistic scalar per category, all random
choices drawn from the threaded pseudo-random source; never throws; unknown
category falls back to a short pseudo-random alphanumeric string. -/

/-- Draw an element of a pool by the next pseudo-random value. -/
def pickPool (pool : List String) (r : Nat) : String :=
  pool.getD (r % pool.length) ""

/-- Modelled from the spec: `synthesize(category, rng) -> ScalarValue`
(§4.1, unconstrained form): a realistic fake value of the category, moving
the pseudo-random state one step. -/
def synthesize (cat : Category) (st : Nat) : Json × Nat :=
  let r := lcgNext st
  match cat with
  | .email => (.str ("user" ++ Nat.repr (r % 10000) ++ "@example.com"), r)
  | .phone => (.str ("+33 6 " ++ Nat.repr (10000000 + r % 90000000)), r)
  | .name =>
    (.str (pickPool ["Alice Martin", "Paul Bernard", "Julie Moreau", "Marc Petit"] r), r)
  | .address =>
    (.str (Nat.repr (1 + r % 200) ++ " " ++
      pickPool ["rue de la Paix", "avenue Victor Hugo", "boulevard Voltaire"] r), r)
  | .date =>
    (.str ("20" ++ Nat.repr (10 + r % 15) ++ "-0" ++ Nat.repr (1 + r % 9) ++
      "-1" ++ Nat.repr (r % 10)), r)
  | .uuid => (.str ("00000000-0000-4000-8000-" ++ Nat.repr (100000000000 + r % 900000000000)), r)
  | .integer => (.num ⟨Int.ofNat (r % 1000), 1⟩, r)
  | .boolean => (.bool (r % 2 == 0), r)
  | .freeText => (.str ("text" ++ Nat.repr (r % 10000)), r)
  | .unknown => (.str ("v" ++ Nat.repr (r % 100000)), r)

/-! ### Anonymizer

Modelled from the spec: §4.6 — walk the document; each sensitive leaf is
replaced by `synthesize` at the matched category; non-sensitive leaves and
all structural nodes are copied unchanged; the pseudo-random state is
threaded through the walk in traversal order. -/

mutual
def anonWalk (key : Option String) : Json → Nat → Json × Nat
  | .arr xs, st =>
    let r := anonArr key xs st
    (.arr r.1, r.2)
  | .obj fs, st =>
    let r := anonFields fs st
    (.obj r.1, r.2)
  | v, st =>
    match leafCategory key v with
    | some cat => synthesize cat st
    | none => (v, st)
def anonArr (key : Option String) : List Json → Nat → List Json × Nat
  | [], st => ([], st)
  | x :: xs, st =>
    let r := anonWalk key x st
    let r2 := anonArr key xs r.2
    (r.1 :: r2.1, r2.2)
def anonFields : List (String × Json) → Nat → List (String × Json) × Nat
  | [], st => ([], st)
  | (k, v) :: fs, st =>
    let r := anonWalk (some k) v st
    let r2 := anonFields fs r.2
    ((k, r.1) :: r2.1, r2.2)
end

/-- Modelled from the spec: `anonymize(document) -> Document`, with the
pseudo-random state seeded from per-call entropy (non-reproducible across
calls unless the caller fixes a seed). -/
def anonymize (d : Json) (entropy : Nat) : Json := (anonWalk none d (lcgNext entropy)).1

/-! ### Path rendering and the analyze operation

Modelled from the spec: §6 — `analyze` returns the sensitive paths rendered
in dot/bracket notation (array steps render as `[*]`) plus the total leaf
count; the walk is the classifier's walk, counting every leaf it visits. -/

/-- Characters of one rendered path step (`first` suppresses the dot). -/
def renderSeg (first : Bool) : Seg → List Char
  | .key k => if first then k.toList else '.' :: k.toList
  | .idx _ => ['[', '*', ']']

/-- Render a concrete path in dot/bracket notation, e.g. `user.email`,
`users[*].phone`. -/
def renderPath (p : List Seg) : String :=
  match p with
  | [] => ""
  | s :: rest => ⟨renderSeg true s ++ (rest.map (renderSeg false)).flatten⟩

mutual
/-- Modelled from the spec: the single read-only walk behind `analyze`:
flagged paths in traversal order, and the number of leaves visited. -/
def analyzeWalk (key : Option String) (path : List Seg) :
    Json → List (List Seg) × Nat
  | .arr xs => analyzeArr key path 0 xs
  | .obj fs => analyzeFields path fs
  | v => (if (leafCategory key v).isSome then [path] else [], 1)
def analyzeArr (key : Option String) (path : List Seg) (i : Nat) :
    List Json → List (List Seg) × Nat
  | [] => ([], 0)
  | x :: xs =>
    let r := analyzeWalk key (path ++ [.idx i]) x
    let r2 := analyzeArr key path (i + 1) xs
    (r.1 ++ r2.1, r.2 + r2.2)
def analyzeFields (path : List Seg) :
    List (String × Json) → List (List Seg) × Nat
  | [] => ([], 0)
  | (k, v) :: fs =>
    let r := analyzeWalk (some k) (path ++ [.key k]) v
    let r2 := analyzeFields path fs
    (r.1 ++ r2.1, r.2 + r2.2)
end

/-- Response shape of the analyze operation (interface `AnalyzeResponse`,
src/lib/api-client.ts). -/
structure AnalyzeResponse where
  success : Bool
  sensitiveFields : List String
  totalFields : Nat
  error : Option String
deriving Repr, DecidableEq, Inhabited

/-- Modelled from the spec: `analyze` — sensitive paths rendered as
dot/bracket strings plus the total leaf count (§6). -/
def analyze (d : Json) : AnalyzeResponse :=
  let r := analyzeWalk none [] d
  { success := true
    sensitiveFields := r.1.map renderPath
    totalFields := r.2
    error := none }

/-! ### Schema constraints

Modelled from the spec: §3/§4.2 — a per-path `ConstraintDescriptor`
addressable by a schema path (object keys plus the array wildcard). The
resolver builds such an index once from the parsed schema; the claims below
quantify over arbitrary indices, so the index itself is the interface. -/

/-- Modelled from the spec: normalized per-path constraint record (§3). -/
structure Constraint where
  ctype : Option String := none
  format : Option String := none
  enumVals : Option (List Json) := none
  minimum : Option Int := none
  maximum : Option Int := none
  required : Bool := false
deriving DecidableEq, Inhabited

/-- Path-indexed constraints: association list from schema path to
descriptor. -/
abbrev PathIndex := List (List PSeg × Constraint)

/-- Modelled from the spec: `lookup(index, path)` (§4.2). -/
def lookupC : PathIndex → List PSeg → Option Constraint
  | [], _ => none
  | (q, c) :: rest, p => if q = p then some c else lookupC rest p

/-- Modelled from the spec: category from a schema `format` (format is
authoritative when present, §4.1). -/
def formatCategory : Option String → Option Category
  | some "email" => some .email
  | some "date" => some .date
  | some "date-time" => some .date
  | some "uuid" => some .uuid
  | _ => none

/-- Modelled from the spec: category from a schema `type` (`string` gives no
signal and defers to the key name / example value). -/
def typeCategory : Option String → Option Category
  | some "integer" => some .integer
  | some "number" => some .integer
  | some "boolean" => some .boolean
  | _ => none

/-- Modelled from the spec: category of a skeleton example value (§3:
numeric → integer, boolean → boolean, email-shaped string → email, null and
others → no signal). -/
def exampleCategory : Json → Option Category
  | .num _ => some .integer
  | .bool _ => some .boolean
  | .str s => valueCategory (.str s)
  | _ => none

/-- Modelled from the spec: the category decision table of §3, in priority
order — schema format, then schema type, then key-name pattern, then the
shape of the example value, falling back to `unknown`. -/
def inferCategory (c : Option Constraint) (key : Option String) (leaf : Json) :
    Category :=
  match c.bind (fun cc => formatCategory cc.format) with
  | some cat => cat
  | none =>
    match c.bind (fun cc => typeCategory cc.ctype) with
    | some cat => cat
    | none =>
      match key.bind keyCategory with
      | some cat => cat
      | none =>
        match exampleCategory leaf with
        | some cat => cat
        | none => .unknown

/-- Modelled from the spec: bound clamping (§4.1) — a synthesized integer
outside `minimum`/`maximum` is clamped to the nearest bound (the
reject-and-retry cap collapses to an immediate clamp in this model). -/
def clampNum (c : Constraint) : Json → Json
  | .num q =>
    match c.minimum with
    | some lo =>
      if q.n < lo then .num ⟨lo, 1⟩
      else match c.maximum with
        | some hi => if hi < q.n then .num ⟨hi, 1⟩ else .num q
        | none => .num q
    | none =>
      match c.maximum with
      | some hi => if hi < q.n then .num ⟨hi, 1⟩ else .num q
      | none => .num q
  | v => v

/-- Modelled from the spec: constrained synthesis (§4.1) — a present,
non-empty `enum` overrides category-based synthesis and the value is drawn
uniformly from the enum by the pseudo-random source; otherwise the category
synthesizer runs and numeric bounds are enforced by clamping. -/
def synthesizeC (cat : Category) (c : Option Constraint) (st : Nat) :
    Json × Nat :=
  match c with
  | none => synthesize cat st
  | some cc =>
    match cc.enumVals with
    | some l =>
      if 0 < l.length then
        let r := lcgNext st
        (l.getD (r % l.length) .null, r)
      else
        let r := synthesize cat st
        (clampNum cc r.1, r.2)
    | none =>
      let r := synthesize cat st
      (clampNum cc r.1, r.2)

/-! ### Skeleton walker / generator

Modelled from the spec: §4.3 — a recursive structural walk mirroring the
skeleton. A single-element array is a template generated `N` times
(`N` = `options.count` when set, default 1); the walk below realizes that by
first expanding every single-element array into `N` copies of its template
(`expand`) and then generating each node in place (`genWalk`), threading one
pseudo-random state through the whole walk in traversal order. Array
positions extend the schema path by the wildcard. -/

mutual
/-- Modelled from the spec: array-template expansion — a skeleton array with
exactly one element becomes `N` copies of its (expanded) template; arrays
with any other length keep their length and per-slot shape. -/
def expand (N : Nat) : Json → Json
  | .arr [t] => .arr (List.replicate N (expand N t))
  | .arr xs => .arr (expandList N xs)
  | .obj fs => .obj (expandFields N fs)
  | v => v
def expandList (N : Nat) : List Json → List Json
  | [] => []
  | x :: xs => expand N x :: expandList N xs
def expandFields (N : Nat) : List (String × Json) → List (String × Json)
  | [] => []
  | (k, v) :: fs => (k, expand N v) :: expandFields N fs
end

mutual
/-- Modelled from the spec: the generation walk (§4.3) — objects keep their
key list and recurse per field; arrays recurse per element under the
wildcard path segment; each scalar leaf is replaced by constrained synthesis
at the category inferred for that leaf. -/
def genWalk (idx : PathIndex) (key : Option String) (path : List PSeg) :
    Json → Nat → Json × Nat
  | .arr xs, st =>
    let r := genElems idx key (path ++ [.star]) xs st
    (.arr r.1, r.2)
  | .obj fs, st =>
    let r := genFields idx path fs st
    (.obj r.1, r.2)
  | v, st => synthesizeC (inferCategory (lookupC idx path) key v) (lookupC idx path) st
def genElems (idx : PathIndex) (key : Option String) (path : List PSeg) :
    List Json → Nat → List Json × Nat
  | [], st => ([], st)
  | x :: xs, st =>
    let r := genWalk idx key path x st
    let r2 := genElems idx key path xs r.2
    (r.1 :: r2.1, r2.2)
def genFields (idx : PathIndex) (path : List PSeg) :
    List (String × Json) → Nat → List (String × Json) × Nat
  | [], st => ([], st)
  | (k, v) :: fs, st =>
    let r := genWalk idx (some k) (path ++ [.key k]) v st
    let r2 := genFields idx path fs r.2
    ((k, r.1) :: r2.1, r2.2)
end

/-- Modelled from the spec: `GenerationOptions` (§3). -/
structure GenOptions where
  seed : Option Int := none
  count : Option Int := none
deriving Repr, DecidableEq, Inhabited

/-- Modelled from the spec: error taxonomy of §7 (the conditions that reach
the caller; recoverable anomalies are absorbed). -/
inductive GenError where
  | invalidOptions
  | malformedInput
deriving Repr, DecidableEq, Inhabited

/-- Modelled from the spec: the initial pseudo-random state — derived from
`options.seed` when present, otherwise from per-call entropy (§4.3). -/
def initState (seed : Option Int) (entropy : Nat) : Nat :=
  match seed with
  | some k => lcgNext k.natAbs
  | none => lcgNext entropy

/-- Modelled from the spec: `generate(skeleton, constraints, options)` —
options are validated at the boundary (negative `count` is
`InvalidOptions`, §7) before any walk starts; then one pseudo-random state
is created from the seed (or entropy) and threaded through the whole walk. -/
def runGenerate (skeleton : Json) (idx : PathIndex) (opts : GenOptions)
    (entropy : Nat) : Except GenError Json :=
  let N : Int := match opts.count with | some c => c | none => 1
  if N < 0 then .error .invalidOptions
  else .ok (genWalk idx none [] (expand N.toNat skeleton) (initState opts.seed entropy)).1

/-! ### Electron `generate-data` handler (from source)

From electron/main.js, `ipcMain.handle('generate-data', ...)`: the command
line for the backend is built as `--skeleton <path> --pretty`, then
`--swagger <path>` when a swagger path is given, then `--seed String(seed)`
only when `seed` is truthy, then `--count String(count)` only when `count`
is truthy. JavaScript number truthiness: `0` (and `undefined`) are falsy. -/

/-- JavaScript truthiness of an optional number (`undefined` and `0` are
falsy, every other number is truthy; `NaN` does not arise for these IPC
fields). -/
def jsTruthyNum : Option Int → Bool
  | none => false
  | some n => n != 0

/-- Decimal rendering of an integer (JavaScript `String(n)`). -/
def intStr (n : Int) : String :=
  if n < 0 then "-" ++ Nat.repr n.natAbs else Nat.repr n.natAbs

/-- From electron/main.js lines 753-774 (and identically 821-842): the
argument list passed to the backend process by the `generate-data`
handler. -/
def electronGenerateArgs (skeletonPath : String) (swaggerPath : Option String)
    (seed count : Option Int) : List String :=
  let args := ["--skeleton", skeletonPath, "--pretty"]
  let args := match swaggerPath with
    | some sw => args ++ ["--swagger", sw]
    | none => args
  let args := if jsTruthyNum seed then args ++ ["--seed", intStr (seed.getD 0)] else args
  if jsTruthyNum count then args ++ ["--count", intStr (count.getD 0)] else args

/-- The backend's value-taking command-line flags (cli_generate.py). -/
def valueFlags : List String := ["--skeleton", "--swagger", "--seed", "--count"]

/-- Value of a flag on the backend command line, skipping the values of
other value-taking flags (argparse-style scanning). -/
def argAfter (flag : String) : List String → Option String
  | [] => none
  | x :: rest =>
    if x = flag then rest.head?
    else if valueFlags.contains x then
      match rest with
      | [] => none
      | _ :: rest2 => argAfter flag rest2
    else argAfter flag rest

/-- Decimal digits to a natural number. -/
def digitsVal (l : List Char) : Nat :=
  l.foldl (fun a c => a * 10 + (c.toNat - 48)) 0

/-- Parse a decimal integer from a command-line argument string. -/
def parseIntArg (s : String) : Int :=
  match s.toList with
  | '-' :: ds => -(Int.ofNat (digitsVal ds))
  | ds => Int.ofNat (digitsVal ds)

/-- Modelled from the spec: the backend CLI (cli_generate.py, not among the
available sources) — reads `--seed` / `--count` from its command line and
runs the generator; without `--seed` the run draws on per-call entropy. -/
def backendRun (skeleton : Json) (idx : PathIndex) (args : List String)
    (entropy : Nat) : Except GenError Json :=
  runGenerate skeleton idx
    { seed := (argAfter "--seed" args).map parseIntArg
      count := (argAfter "--count" args).map parseIntArg }
    entropy

/-- The composed Electron generation path: the handler builds the command
line from the request fields and the backend process runs it. -/
def electronGenerate (skeleton : Json) (idx : PathIndex)
    (swaggerPath : Option String) (seed count : Option Int) (entropy : Nat) :
    Except GenError Json :=
  backendRun skeleton idx (electronGenerateArgs "skeleton.json" swaggerPath seed count) entropy

/-! ### Random document generator

Modelled from the spec: §4.4 — parameter-driven nested random structure: at
each level up to `maxKeys` randomly named children, each a nested object, an
array of up to `maxItems` scalar leaves, or a scalar leaf; recursion stops
at `depth = 0`, forcing scalar leaves; deterministic under a seed by the
same state-threading discipline as the skeleton walker. -/

/-- Modelled from the spec: one random scalar leaf of a randomly chosen
category. -/
def randScalar (st : Nat) : Json × Nat :=
  let r := lcgNext st
  synthesize
    (match r % 4 with
      | 0 => .name
      | 1 => .integer
      | 2 => .date
      | _ => .boolean) r

/-- Modelled from the spec: an array of `n` random scalar leaves. -/
def genRandomItems : Nat → Nat → List Json × Nat
  | 0, st => ([], st)
  | n + 1, st =>
    let r := randScalar st
    let r2 := genRandomItems n r.2
    (r.1 :: r2.1, r2.2)

/-- Modelled from the spec: build `k` randomly named children, threading the
pseudo-random state, where each child's value comes from the given
generator (applied to the state drawn for that child). -/
def loopChildren (child : Nat → Json × Nat) : Nat → Nat → List (String × Json) × Nat
  | 0, st => ([], st)
  | k + 1, st =>
    let r := lcgNext st
    let c := child r
    let rest := loopChildren child k c.2
    (("k" ++ Nat.repr (r % 1000), c.1) :: rest.1, rest.2)

/-- Modelled from the spec: the random document at remaining depth `d` — a
scalar when `d = 0`, otherwise an object of randomly many children, each a
nested value at depth `d - 1`, an array of scalar leaves (only when depth
remains below the child), or a scalar leaf, as the pseudo-random source
chooses. -/
def genRandomVal (mK mI : Nat) : Nat → Nat → Json × Nat
  | 0, st => randScalar st
  | d + 1, st =>
    let r := lcgNext st
    let ch := loopChildren
      (fun s =>
        match s % 3 with
        | 0 => genRandomVal mK mI d s
        | 1 =>
          if d = 0 then randScalar s
          else
            let r2 := lcgNext s
            let items := genRandomItems (r2 % (max mI 1) + 1) r2
            (.arr items.1, items.2)
        | _ => randScalar s)
      (r % (max mK 1) + 1) r
    (.obj ch.1, ch.2)

mutual
/-- Nesting level of a document: scalars are 0, an array or object is one
more than its deepest member. -/
def docDepth : Json → Nat
  | .arr xs => 1 + docDepthArr xs
  | .obj fs => 1 + docDepthObj fs
  | _ => 0
def docDepthArr : List Json → Nat
  | [] => 0
  | x :: xs => max (docDepth x) (docDepthArr xs)
def docDepthObj : List (String × Json) → Nat
  | [] => 0
  | (_, v) :: fs => max (docDepth v) (docDepthObj fs)
end

/-- Options of the random-JSON operation (interface `RandomJsonOptions`,
src/lib/api-client.ts). -/
structure RandomJsonOptions where
  seed : Option Int := none
  depth : Option Int := none
  maxKeys : Option Int := none
  maxItems : Option Int := none
deriving Repr, DecidableEq, Inhabited

/-- Modelled from the spec: the boundary of the random-JSON operation —
options are validated (negative `depth` / fanout is `InvalidOptions`, §7)
before any generation starts. -/
def generateRandomTop (o : RandomJsonOptions) (entropy : Nat) :
    Except GenError Json :=
  let d := o.depth.getD 3
  let mK := o.maxKeys.getD 5
  let mI := o.maxItems.getD 5
  if d < 0 || mK < 0 || mI < 0 then .error .invalidOptions
  else .ok (genRandomVal mK.toNat mI.toNat d.toNat (initState o.seed entropy)).1

/-! ### Random-JSON view option handling (from source)

From src/components/views/random-json-view.tsx, `handleGenerate` lines
29-39: each numeric text field is read with
`x && x.trim() ? Number(x) : default`, and the request sends
`!isNaN(n) && n > 0 ? n : default` for depth (default 3), maxKeys and
maxItems (default 5), and `seedNum && !isNaN(seedNum) ? seedNum : undefined`
for the seed. -/

/-- A numeric text field as the view reads it: blank, non-numeric (`NaN`
under `Number(...)`), or a number. -/
inductive RawInput where
  | blank
  | nan
  | num (n : Int)
deriving Repr, DecidableEq, Inhabited

/-- Models `x && x.trim() ? Number(x) : d` — `none` is `NaN`. -/
def numOrDefault (r : RawInput) (d : Int) : Option Int :=
  match r with
  | .blank => some d
  | .nan => none
  | .num n => some n

/-- The depth the view sends: `!isNaN(depthNum) && depthNum > 0 ? depthNum : 3`. -/
def sentDepth (r : RawInput) : Int :=
  match numOrDefault r 3 with
  | none => 3
  | some n => if 0 < n then n else 3

/-- The maxKeys the view sends (default 5). -/
def sentMaxKeys (r : RawInput) : Int :=
  match numOrDefault r 5 with
  | none => 5
  | some n => if 0 < n then n else 5

/-- The maxItems the view sends (default 5). -/
def sentMaxItems (r : RawInput) : Int :=
  match numOrDefault r 5 with
  | none => 5
  | some n => if 0 < n then n else 5

/-- The seed the view sends: `seedNum && !isNaN(seedNum) ? seedNum :
undefined` (so `0`, blank and `NaN` all send no seed). -/
def sentSeed (r : RawInput) : Option Int :=
  match r with
  | .blank => none
  | .nan => none
  | .num n => if n = 0 then none else some n

/-- The request body `handleGenerate` sends to `/api/random-json`. -/
def viewRandomJsonRequest (dr kr ir sr : RawInput) : RandomJsonOptions :=
  { seed := sentSeed sr
    depth := some (sentDepth dr)
    maxKeys := some (sentMaxKeys kr)
    maxItems := some (sentMaxItems ir) }

/-- The random-JSON generation path as driven from the view: the sanitized
request against the (spec-modelled) operation boundary. -/
def randomJsonFromView (dr kr ir sr : RawInput) (entropy : Nat) :
    Except GenError Json :=
  generateRandomTop (viewRandomJsonRequest dr kr ir sr) entropy

/-! ### Swagger view schema inference (from source)

From src/components/views/swagger-view.tsx, `inferSchema` lines 11-35:
arrays first (`items` from the first element, `{}` when empty), then null
(`string`, nullable), then by `typeof`: string, number
(`Number.isInteger` picks `integer` over `number`), boolean, object
(properties in insertion order). -/

mutual
/-- From source (swagger-view.tsx `inferSchema`): the inferred OpenAPI
schema fragment of a JSON value, itself a JSON value. -/
def inferSchema : Json → Json
  | .arr [] => .obj [("type", .str "array"), ("items", .obj [])]
  | .arr (x :: _) => .obj [("type", .str "array"), ("items", inferSchema x)]
  | .null => .obj [("type", .str "string"), ("nullable", .bool true)]
  | .str _ => .obj [("type", .str "string")]
  | .num q => .obj [("type", .str (if q.d = 1 then "integer" else "number"))]
  | .bool _ => .obj [("type", .str "boolean")]
  | .obj fs => .obj [("type", .str "object"), ("properties", .obj (inferProps fs))]
def inferProps : List (String × Json) → List (String × Json)
  | [] => []
  | (k, v) :: fs => (k, inferSchema v) :: inferProps fs
end

/-! ### API client request pipeline (from source)

From src/lib/api-client.ts, `APIClient.request` lines 296-407: status-code
triage (404, 502/503/504, 500), empty-body and unparseable-body errors, the
`!response.ok` error, and the success check
`data.success === false || (data.success === undefined && data.error)` —
note the second disjunct tests JavaScript *truthiness* of `data.error`.
Every failing branch throws `APIError`; only the final branch returns.
Error message texts are abbreviated here; which branch is taken is modelled
exactly. -/

/-- The `APIError` the client throws (class `APIError`,
src/lib/api-client.ts). -/
structure APIError where
  message : String
  statusCode : Nat
  details : Option String
deriving Repr, DecidableEq, Inhabited

/-- The body of an HTTP response as the client sees it: empty (or
whitespace-only), non-JSON text, or parsed JSON. -/
inductive BodyText where
  | empty
  | invalid (raw : String)
  | parsed (j : Json)
deriving DecidableEq, Inhabited

/-- Models `response.ok`: HTTP status in [200, 300). -/
def respOk (status : Nat) : Bool := 200 ≤ status && status < 300

/-- JavaScript property access on a parsed JSON value (`undefined` is
`none`; access on a non-object yields `undefined`; access on `null` throws,
which `apiRequest` handles separately). -/
def getField (j : Json) (k : String) : Option Json :=
  match j with
  | .obj fs => lookupField fs k
  | _ => none

/-- JavaScript truthiness of a JSON value. -/
def jsTruthy : Json → Bool
  | .null => false
  | .bool b => b
  | .num q => q.n != 0
  | .str s => s != ""
  | .arr _ => true
  | .obj _ => true

/-- JavaScript truthiness of a possibly-undefined value. -/
def optTruthy : Option Json → Bool
  | none => false
  | some v => jsTruthy v

/-- JavaScript string of a message field. -/
def jsStrOf : Json → String
  | .str s => s
  | _ => ""

/-- Models `data?.error || data?.message || fallback`. -/
def failMsg (data : Json) (fallback : String) : String :=
  if optTruthy (getField data "error") then jsStrOf ((getField data "error").getD .null)
  else if optTruthy (getField data "message") then jsStrOf ((getField data "message").getD .null)
  else fallback

/-- From source (api-client.ts `APIClient.request`): the decision pipeline
from HTTP status and response body to either a thrown `APIError`
(`Except.error`) or the returned payload (`Except.ok`). -/
def apiRequest (endpoint : String) (status : Nat) (body : BodyText) :
    Except APIError Json :=
  if status = 404 then
    .error ⟨"Endpoint not found: " ++ endpoint, 404, some "endpoint not deployed or URL incorrect"⟩
  else if status = 502 || status = 503 || status = 504 then
    .error ⟨"Service unavailable", status, some "server temporarily unavailable"⟩
  else if status = 500 then
    .error ⟨"Internal server error", 500, some "server error while processing the request"⟩
  else
    match body with
    | .empty =>
      if respOk status && status == 200 then
        .error ⟨"Empty response from server", status, some "endpoint may not be properly configured"⟩
      else
        .error ⟨"Empty response from server (HTTP)", status, some "endpoint may not be working correctly"⟩
    | .invalid raw =>
      .error ⟨"Invalid JSON response from server", status, some raw⟩
    | .parsed data =>
      if respOk status = false then
        .error ⟨failMsg data "HTTP error", status, none⟩
      else if data = Json.null then
        .error ⟨"Cannot read properties of null", 500, none⟩
      else if getField data "success" = some (.bool false) ∨
          (getField data "success" = none ∧ optTruthy (getField data "error") = true) then
        .error ⟨failMsg data "Operation failed", status, (getField data "details").map jsStrOf⟩
      else
        .ok data

/-! ### Basic lemmas about scalars, synthesis and depth -/

instance {ε α : Type} [DecidableEq ε] [DecidableEq α] : DecidableEq (Except ε α) := fun a b =>
  match a, b with
  | .ok x, .ok y =>
    if h : x = y then .isTrue (by rw [h]) else .isFalse (by intro hc; cases hc; exact h rfl)
  | .error x, .error y =>
    if h : x = y then .isTrue (by rw [h]) else .isFalse (by intro hc; cases hc; exact h rfl)
  | .ok _, .error _ => .isFalse (by intro hc; cases hc)
  | .error _, .ok _ => .isFalse (by intro hc; cases hc)

theorem synthesize_scalar (cat : Category) (st : Nat) :
    isScalarJ (synthesize cat st).1 = true := by
  cases cat <;> simp [synthesize, isScalarJ]

theorem docDepth_of_scalar (v : Json) (h : isScalarJ v = true) : docDepth v = 0 := by
  cases v <;> simp_all [isScalarJ, docDepth]

theorem shape_of_scalar (v : Json) (h : isScalarJ v = true) : shape v = .null := by
  cases v <;> simp_all [isScalarJ, shape]

theorem randScalar_scalar (st : Nat) : isScalarJ (randScalar st).1 = true := by
  simp only [randScalar]
  split <;> exact synthesize_scalar _ _

theorem genRandomItems_depth (n st : Nat) :
    docDepthArr (genRandomItems n st).1 = 0 := by
  induction n generalizing st with
  | zero => simp [genRandomItems, docDepthArr]
  | succ n ih =>
    simp only [genRandomItems, docDepthArr]
    rw [docDepth_of_scalar _ (randScalar_scalar st), ih]
    simp

theorem loopChildren_depth (child : Nat → Json × Nat) (B : Nat)
    (hc : ∀ s, docDepth (child s).1 ≤ B) :
    ∀ (k st : Nat), docDepthObj (loopChildren child k st).1 ≤ B := by
  intro k
  induction k with
  | zero => intro st; simp [loopChildren, docDepthObj]
  | succ k ihk =>
    intro st
    simp only [loopChildren, docDepthObj]
    exact max_le (hc _) (ihk _)

theorem genRandomVal_depth :
    ∀ (d mK mI st : Nat), docDepth (genRandomVal mK mI d st).1 ≤ d := by
  intro d
  induction d with
  | zero =>
    intro mK mI st
    rw [genRandomVal, docDepth_of_scalar _ (randScalar_scalar st)]
  | succ d ih =>
    intro mK mI st
    simp only [genRandomVal, docDepth]
    rw [Nat.add_comm d 1]
    apply Nat.add_le_add_left
    apply loopChildren_depth
    intro s
    dsimp only
    split
    · exact ih mK mI _
    · split
      · rw [docDepth_of_scalar _ (randScalar_scalar _)]; omega
      · rename_i hd
        simp only [docDepth, genRandomItems_depth]
        omega
    · rw [docDepth_of_scalar _ (randScalar_scalar _)]; omega

/-! ### The analyze walk agrees with the classifier and the leaf count -/

theorem analyzeWalk_spec :
    ∀ j key path, analyzeWalk key path j = (classifyWalk key path j, countLeaves j) := by
  intro j
  induction j using Json.ind2 with
  | hnull => intro key path; simp [analyzeWalk, classifyWalk, countLeaves]
  | hbool b => intro key path; simp [analyzeWalk, classifyWalk, countLeaves]
  | hnum q => intro key path; simp [analyzeWalk, classifyWalk, countLeaves]
  | hstr s => intro key path; simp [analyzeWalk, classifyWalk, countLeaves]
  | harr xs ih =>
    intro key path
    simp only [analyzeWalk, classifyWalk, countLeaves]
    have haux : ∀ (l : List Json),
        (∀ x ∈ l, ∀ key2 path2,
          analyzeWalk key2 path2 x = (classifyWalk key2 path2 x, countLeaves x)) →
        ∀ i, analyzeArr key path i l = (classifyArr key path i l, countLeavesArr l) := by
      intro l hl
      induction l with
      | nil => intro i; simp [analyzeArr, classifyArr, countLeavesArr]
      | cons x t iht =>
        intro i
        simp only [analyzeArr, classifyArr, countLeavesArr]
        rw [hl x (by simp), iht (fun y hy => hl y (by simp [hy]))]
    exact haux xs ih 0
  | hobj fs ih =>
    intro key path
    simp only [analyzeWalk, classifyWalk, countLeaves]
    have haux : ∀ (l : List (String × Json)),
        (∀ kv ∈ l, ∀ key2 path2,
          analyzeWalk key2 path2 kv.2 = (classifyWalk key2 path2 kv.2, countLeaves kv.2)) →
        analyzeFields path l = (classifyFields path l, countLeavesObj l) := by
      intro l hl
      induction l with
      | nil => simp [analyzeFields, classifyFields, countLeavesObj]
      | cons kv t iht =>
        match kv with
        | (k, v) =>
          simp only [analyzeFields, classifyFields, countLeavesObj]
          rw [hl (k, v) (by simp), iht (fun y hy => hl y (by simp [hy]))]
    exact haux fs ih

/-! ### Anonymizer: structure preservation and frame lemmas -/

theorem anonWalk_scalar (key : Option String) (v : Json) (st : Nat)
    (h : isScalarJ v = true) : isScalarJ (anonWalk key v st).1 = true := by
  cases v with
  | arr xs => simp [isScalarJ] at h
  | obj fs => simp [isScalarJ] at h
  | null =>
    simp only [anonWalk]
    split
    · exact synthesize_scalar _ _
    · rfl
  | bool b =>
    simp only [anonWalk]
    split
    · exact synthesize_scalar _ _
    · rfl
  | num q =>
    simp only [anonWalk]
    split
    · exact synthesize_scalar _ _
    · rfl
  | str s =>
    simp only [anonWalk]
    split
    · exact synthesize_scalar _ _
    · rfl

theorem anonWalk_shape :
    ∀ j key st, shape (anonWalk key j st).1 = shape j := by
  intro j
  induction j using Json.ind2 with
  | hnull =>
    intro key st
    rw [shape_of_scalar _ (anonWalk_scalar key .null st rfl)]
    rfl
  | hbool b =>
    intro key st
    rw [shape_of_scalar _ (anonWalk_scalar key (.bool b) st rfl)]
    rfl
  | hnum q =>
    intro key st
    rw [shape_of_scalar _ (anonWalk_scalar key (.num q) st rfl)]
    rfl
  | hstr s =>
    intro key st
    rw [shape_of_scalar _ (anonWalk_scalar key (.str s) st rfl)]
    rfl
  | harr xs ih =>
    intro key st
    simp only [anonWalk, shape]
    have haux : ∀ (l : List Json),
        (∀ x ∈ l, ∀ key2 st2, shape (anonWalk key2 x st2).1 = shape x) →
        ∀ st2, shapeArr (anonArr key l st2).1 = shapeArr l := by
      intro l hl
      induction l with
      | nil => intro st2; rfl
      | cons x t iht =>
        intro st2
        simp only [anonArr, shapeArr]
        rw [hl x (by simp), iht (fun y hy => hl y (by simp [hy]))]
    rw [haux xs ih st]
  | hobj fs ih =>
    intro key st
    simp only [anonWalk, shape]
    have haux : ∀ (l : List (String × Json)),
        (∀ kv ∈ l, ∀ key2 st2, shape (anonWalk key2 kv.2 st2).1 = shape kv.2) →
        ∀ st2, shapeObj (anonFields l st2).1 = shapeObj l := by
      intro l hl
      induction l with
      | nil => intro st2; rfl
      | cons kv t iht =>
        match kv with
        | (k, v) =>
          intro st2
          simp only [anonFields, shapeObj]
          rw [hl (k, v) (by simp), iht (fun y hy => hl y (by simp [hy]))]
    rw [haux fs ih st]

theorem getConcrete_scalar (v : Json) (s : Seg) (p : List Seg)
    (h : isScalarJ v = true) : getConcrete (s :: p) v = none := by
  cases v <;> cases s <;> simp_all [isScalarJ, getConcrete]

theorem lookupField_mem :
    ∀ (fs : List (String × Json)) k v, lookupField fs k = some v → (k, v) ∈ fs := by
  intro fs
  induction fs with
  | nil => intro k v h; simp [lookupField] at h
  | cons kv t ih =>
    intro k v h
    match kv with
    | (k0, v0) =>
      simp only [lookupField] at h
      by_cases hk : k0 = k
      · simp [hk] at h
        simp [hk, h]
      · simp [hk] at h
        exact List.mem_cons_of_mem _ (ih k v h)

theorem anonFields_lookup :
    ∀ (fs : List (String × Json)) (st : Nat) (k : String),
      (lookupField fs k = none ∧ lookupField (anonFields fs st).1 k = none) ∨
      ∃ v st2, lookupField fs k = some v ∧
        lookupField (anonFields fs st).1 k = some (anonWalk (some k) v st2).1 := by
  intro fs
  induction fs with
  | nil => intro st k; left; simp [lookupField, anonFields]
  | cons kv t ih =>
    intro st k
    match kv with
    | (k0, v0) =>
      simp only [anonFields, lookupField]
      by_cases hk : k0 = k
      · right
        subst hk
        exact ⟨v0, st, by simp, by simp⟩
      · simp only [hk, if_false]
        exact ih _ k

theorem anonArr_get :
    ∀ (xs : List Json) (key : Option String) (st : Nat) (i : Nat),
      (xs.get? i = none ∧ (anonArr key xs st).1.get? i = none) ∨
      ∃ v st2, xs.get? i = some v ∧
        (anonArr key xs st).1.get? i = some (anonWalk key v st2).1 := by
  intro xs
  induction xs with
  | nil => intro key st i; left; simp [anonArr]
  | cons x t ih =>
    intro key st i
    cases i with
    | zero =>
      right
      exact ⟨x, st, by simp, by simp [anonArr]⟩
    | succ i =>
      simp only [anonArr, List.get?_cons_succ]
      exact ih key _ i

theorem classifyFields_mem :
    ∀ (fs : List (String × Json)) (base : List Seg) (k : String) (v : Json)
      (x : List Seg),
      lookupField fs k = some v →
      x ∈ classifyWalk (some k) (base ++ [.key k]) v →
      x ∈ classifyFields base fs := by
  intro fs
  induction fs with
  | nil => intro base k v x h; simp [lookupField] at h
  | cons kv t ih =>
    intro base k v x h hx
    match kv with
    | (k0, v0) =>
      simp only [lookupField] at h
      simp only [classifyFields]
      by_cases hk : k0 = k
      · subst hk
        simp only [if_pos rfl] at h
        cases h
        exact List.mem_append_left _ hx
      · simp only [hk, if_false] at h
        exact List.mem_append_right _ (ih base k v x h hx)

theorem classifyArr_mem :
    ∀ (xs : List Json) (key : Option String) (base : List Seg) (i0 i : Nat)
      (v : Json) (x : List Seg),
      xs.get? i = some v →
      x ∈ classifyWalk key (base ++ [.idx (i0 + i)]) v →
      x ∈ classifyArr key base i0 xs := by
  intro xs
  induction xs with
  | nil => intro key base i0 i v x h; simp at h
  | cons y t ih =>
    intro key base i0 i v x h hx
    simp only [classifyArr]
    cases i with
    | zero =>
      simp at h
      cases h
      exact List.mem_append_left _ hx
    | succ i =>
      simp only [List.get?_cons_succ] at h
      have harith : i0 + (i + 1) = (i0 + 1) + i := by omega
      rw [harith] at hx
      exact List.mem_append_right _ (ih key base (i0 + 1) i v x h hx)

theorem anonWalk_frame :
    ∀ (j : Json) (key : Option String) (base : List Seg) (st : Nat)
      (p : List Seg) (v : Json),
      getConcrete p j = some v →
      isScalarJ v = true →
      getConcrete p (anonWalk key j st).1 ≠ some v →
      (base ++ p) ∈ classifyWalk key base j := by
  intro j
  induction j using Json.ind2 with
  | hnull =>
    intro key base st p v hget hscal hne
    cases p with
    | nil =>
      simp only [getConcrete] at hget hne
      cases hget
      cases hh : leafCategory key Json.null with
      | some c => simp [classifyWalk, hh]
      | none =>
        simp only [anonWalk, hh] at hne
        simp at hne
    | cons s p2 =>
      rw [getConcrete_scalar Json.null s p2 rfl] at hget
      cases hget
  | hbool b =>
    intro key base st p v hget hscal hne
    cases p with
    | nil =>
      simp only [getConcrete] at hget hne
      cases hget
      cases hh : leafCategory key (Json.bool b) with
      | some c => simp [classifyWalk, hh]
      | none =>
        simp only [anonWalk, hh] at hne
        simp at hne
    | cons s p2 =>
      rw [getConcrete_scalar (Json.bool b) s p2 rfl] at hget
      cases hget
  | hnum q =>
    intro key base st p v hget hscal hne
    cases p with
    | nil =>
      simp only [getConcrete] at hget hne
      cases hget
      cases hh : leafCategory key (Json.num q) with
      | some c => simp [classifyWalk, hh]
      | none =>
        simp only [anonWalk, hh] at hne
        simp at hne
    | cons s p2 =>
      rw [getConcrete_scalar (Json.num q) s p2 rfl] at hget
      cases hget
  | hstr s =>
    intro key base st p v hget hscal hne
    cases p with
    | nil =>
      simp only [getConcrete] at hget hne
      cases hget
      cases hh : leafCategory key (Json.str s) with
      | some c => simp [classifyWalk, hh]
      | none =>
        simp only [anonWalk, hh] at hne
        simp at hne
    | cons s2 p2 =>
      rw [getConcrete_scalar (Json.str s) s2 p2 rfl] at hget
      cases hget
  | harr xs ih =>
    intro key base st p v hget hscal hne
    cases p with
    | nil =>
      simp only [getConcrete] at hget
      cases hget
      simp [isScalarJ] at hscal
    | cons s p2 =>
      cases s with
      | key k => simp [getConcrete] at hget
      | idx i =>
        simp only [getConcrete] at hget
        cases hxi : xs.get? i with
        | none => rw [hxi] at hget; cases hget
        | some w =>
          rw [hxi] at hget
          simp only [anonWalk, getConcrete] at hne
          rcases anonArr_get xs key st i with ⟨h1, h2⟩ | ⟨w2, st2, h1, h2⟩
          · rw [h1] at hxi; cases hxi
          · have hw : w2 = w := by
              rw [h1] at hxi
              exact Option.some.inj hxi
            rw [hw] at h1 h2
            rw [h2] at hne
            simp only [classifyWalk]
            refine classifyArr_mem xs key base 0 i w (base ++ (Seg.idx i :: p2)) h1 ?_
            simp only [Nat.zero_add]
            have heq : base ++ Seg.idx i :: p2 = (base ++ [Seg.idx i]) ++ p2 := by simp
            rw [heq]
            exact ih w (List.get?_mem h1) key (base ++ [.idx i]) st2 p2 v hget hscal hne
  | hobj fs ih =>
    intro key base st p v hget hscal hne
    cases p with
    | nil =>
      simp only [getConcrete] at hget
      cases hget
      simp [isScalarJ] at hscal
    | cons s p2 =>
      cases s with
      | idx i => simp [getConcrete] at hget
      | key k =>
        simp only [getConcrete] at hget
        cases hxk : lookupField fs k with
        | none => rw [hxk] at hget; cases hget
        | some w =>
          rw [hxk] at hget
          simp only [anonWalk, getConcrete] at hne
          rcases anonFields_lookup fs st k with ⟨h1, h2⟩ | ⟨w2, st2, h1, h2⟩
          · rw [h1] at hxk; cases hxk
          · have hw : w2 = w := by
              rw [h1] at hxk
              exact Option.some.inj hxk
            rw [hw] at h1 h2
            rw [h2] at hne
            simp only [classifyWalk]
            refine classifyFields_mem fs base k w (base ++ (Seg.key k :: p2)) h1 ?_
            have heq : base ++ Seg.key k :: p2 = (base ++ [Seg.key k]) ++ p2 := by simp
            rw [heq]
            exact ih (k, w) (lookupField_mem fs k w h1) (some k) (base ++ [.key k]) st2 p2 v hget hscal hne

/-! ### Shape preservation of the skeleton generator -/

mutual
/-- Relation `shapeFollows S out`: the output document has the same object key lists
(in order) and the same array/object/scalar type-shape at every path as the
skeleton `S`; a single-element (template) array of `S` may appear in `out`
with any length, every element following the template; any other array
keeps its length and per-slot shape; scalar leaves map to scalar leaves. -/
def shapeFollows : Json → Json → Bool
  | .obj fs, .obj gs => shapeFollowsFields fs gs
  | .arr [t], .arr ys => shapeFollowsAll t ys
  | .arr es, .arr ys => shapeFollowsElems es ys
  | s, t => isScalarJ s && isScalarJ t
def shapeFollowsAll (t : Json) : List Json → Bool
  | [] => true
  | y :: ys => shapeFollows t y && shapeFollowsAll t ys
def shapeFollowsElems : List Json → List Json → Bool
  | [], [] => true
  | e :: es, y :: ys => shapeFollows e y && shapeFollowsElems es ys
  | _, _ => false
def shapeFollowsFields : List (String × Json) → List (String × Json) → Bool
  | [], [] => true
  | (k, v) :: fs, (k2, y) :: gs => k == k2 && shapeFollows v y && shapeFollowsFields fs gs
  | _, _ => false
end

theorem shapeFollows_scalar (s t : Json) (hs : isScalarJ s = true)
    (ht : isScalarJ t = true) : shapeFollows s t = true := by
  cases s <;> cases t <;> simp_all [shapeFollows, isScalarJ]

theorem lookupC_nil (p : List PSeg) : lookupC [] p = none := rfl

theorem genWalk_shape :
    ∀ (S : Json) (N : Nat) (key : Option String) (path : List PSeg) (st : Nat),
      shapeFollows S (genWalk [] key path (expand N S) st).1 = true := by
  intro S
  induction S using Json.ind2 with
  | hnull =>
    intro N key path st
    simp only [expand, genWalk, lookupC_nil, synthesizeC]
    exact shapeFollows_scalar _ _ rfl (synthesize_scalar _ _)
  | hbool b =>
    intro N key path st
    simp only [expand, genWalk, lookupC_nil, synthesizeC]
    exact shapeFollows_scalar _ _ rfl (synthesize_scalar _ _)
  | hnum q =>
    intro N key path st
    simp only [expand, genWalk, lookupC_nil, synthesizeC]
    exact shapeFollows_scalar _ _ rfl (synthesize_scalar _ _)
  | hstr s =>
    intro N key path st
    simp only [expand, genWalk, lookupC_nil, synthesizeC]
    exact shapeFollows_scalar _ _ rfl (synthesize_scalar _ _)
  | hobj fs ih =>
    intro N key path st
    simp only [expand, genWalk]
    have haux : ∀ (l : List (String × Json)),
        (∀ kv ∈ l, ∀ N2 key2 path2 st2,
          shapeFollows kv.2 (genWalk [] key2 path2 (expand N2 kv.2) st2).1 = true) →
        ∀ st2, shapeFollowsFields l (genFields [] path (expandFields N l) st2).1 = true := by
      intro l hl
      induction l with
      | nil => intro st2; simp [expandFields, genFields, shapeFollowsFields]
      | cons kv t iht =>
        match kv with
        | (k, v) =>
          intro st2
          simp only [expandFields, genFields, shapeFollowsFields, Bool.and_eq_true,
            beq_self_eq_true, true_and]
          exact ⟨hl (k, v) (by simp) N (some k) (path ++ [PSeg.key k]) st2,
            iht (fun y hy => hl y (by simp [hy])) _⟩
    simp only [shapeFollows]
    exact haux fs ih st
  | harr xs ih =>
    intro N key path st
    cases xs with
    | nil =>
      simp [expand, expandList, genWalk, genElems, shapeFollows, shapeFollowsElems]
    | cons x rest =>
      cases rest with
      | nil =>
        simp only [expand, genWalk, shapeFollows]
        have haux : ∀ (l : List Json), (∀ z ∈ l, z = expand N x) →
            ∀ st2, shapeFollowsAll x
              (genElems [] key (path ++ [PSeg.star]) l st2).1 = true := by
          intro l hl
          induction l with
          | nil => intro st2; simp [genElems, shapeFollowsAll]
          | cons z t2 iht =>
            intro st2
            simp only [genElems, shapeFollowsAll, Bool.and_eq_true]
            constructor
            · rw [hl z (by simp)]
              exact ih x (by simp) N key (path ++ [PSeg.star]) st2
            · exact iht (fun y hy => hl y (by simp [hy])) _
        exact haux _ (fun z hz => List.eq_of_mem_replicate hz) st
      | cons y rest2 =>
        simp only [expand, genWalk, shapeFollows]
        have haux : ∀ (l : List Json),
            (∀ e ∈ l, ∀ N2 key2 path2 st2,
              shapeFollows e (genWalk [] key2 path2 (expand N2 e) st2).1 = true) →
            ∀ st2, shapeFollowsElems l
              (genElems [] key (path ++ [PSeg.star]) (expandList N l) st2).1 = true := by
          intro l hl
          induction l with
          | nil => intro st2; simp [expandList, genElems, shapeFollowsElems]
          | cons e t2 iht =>
            intro st2
            simp only [expandList, genElems, shapeFollowsElems, Bool.and_eq_true]
            exact ⟨hl e (by simp) N key (path ++ [PSeg.star]) st2,
              iht (fun z hz => hl z (by simp [hz])) _⟩
        exact haux _ (fun e he => ih e he) st

/-! ### Enum constraints: the generator draws enum values from the enum -/

/-- All enums of a constraint index hold scalar values only (the shape in
which OpenAPI enums occur for scalar skeleton leaves). -/
def scalarEnumsB (idx : PathIndex) : Bool :=
  idx.all fun qc =>
    match qc.2.enumVals with
    | some l => l.all isScalarJ
    | none => true

theorem lookupC_mem :
    ∀ (idx : PathIndex) (p : List PSeg) (c : Constraint),
      lookupC idx p = some c → (p, c) ∈ idx := by
  intro idx
  induction idx with
  | nil => intro p c h; simp [lookupC] at h
  | cons qc t ih =>
    intro p c h
    match qc with
    | (q, c0) =>
      simp only [lookupC] at h
      by_cases hq : q = p
      · subst hq
        simp only [if_pos rfl] at h
        cases h
        exact List.mem_cons_self _ _
      · simp only [hq, if_false] at h
        exact List.mem_cons_of_mem _ (ih p c h)

theorem scalarEnums_lookup (idx : PathIndex) (p : List PSeg) (c : Constraint)
    (l : List Json) (hsc : scalarEnumsB idx = true)
    (hl : lookupC idx p = some c) (he : c.enumVals = some l) :
    ∀ x ∈ l, isScalarJ x = true := by
  intro x hx
  have hmem := lookupC_mem idx p c hl
  simp only [scalarEnumsB, List.all_eq_true] at hsc
  have := hsc _ hmem
  rw [he] at this
  simp only [List.all_eq_true] at this
  exact this x hx

theorem clampNum_scalar (c : Constraint) (v : Json) (h : isScalarJ v = true) :
    isScalarJ (clampNum c v) = true := by
  cases v with
  | num q =>
    simp only [clampNum]
    cases hmin : c.minimum with
    | none =>
      cases hmax : c.maximum with
      | none => simp [isScalarJ]
      | some hi =>
        simp only
        split <;> rfl
    | some lo =>
      simp only
      split
      · rfl
      · cases hmax : c.maximum with
        | none => simp [isScalarJ]
        | some hi =>
          simp only
          split <;> rfl
  | arr xs => simp [isScalarJ] at h
  | obj fs => simp [isScalarJ] at h
  | null => rfl
  | bool b => rfl
  | str s => rfl

theorem getD_mem_of_lt {l : List Json} {i : Nat} {d : Json} (h : i < l.length) :
    l.getD i d ∈ l := by
  induction l generalizing i with
  | nil => simp at h
  | cons x t ih =>
    cases i with
    | zero => simp [List.getD]
    | succ i =>
      simp only [List.getD_cons_succ]
      exact List.mem_cons_of_mem _ (ih (by simpa using h))

theorem synthesizeC_enum_mem (cat : Category) (cc : Constraint) (st : Nat)
    (l : List Json) (he : cc.enumVals = some l) (hlen : 0 < l.length) :
    (synthesizeC cat (some cc) st).1 ∈ l := by
  simp only [synthesizeC, he, hlen, if_pos]
  exact getD_mem_of_lt (Nat.mod_lt _ hlen)

theorem synthesizeC_scalar (cat : Category) (co : Option Constraint) (st : Nat)
    (h : ∀ cc, co = some cc → ∀ l, cc.enumVals = some l → ∀ x ∈ l, isScalarJ x = true) :
    isScalarJ (synthesizeC cat co st).1 = true := by
  cases co with
  | none => exact synthesize_scalar _ _
  | some cc =>
    simp only [synthesizeC]
    cases he : cc.enumVals with
    | none => exact clampNum_scalar _ _ (synthesize_scalar _ _)
    | some l =>
      by_cases hlen : 0 < l.length
      · simp only [hlen, if_pos]
        exact h cc rfl l he _ (getD_mem_of_lt (Nat.mod_lt _ hlen))
      · simp only [hlen, if_false]
        exact clampNum_scalar _ _ (synthesize_scalar _ _)

theorem expandFields_lookup :
    ∀ (fs : List (String × Json)) (N : Nat) (k : String),
      lookupField (expandFields N fs) k = (lookupField fs k).map (expand N) := by
  intro fs N
  induction fs with
  | nil => intro k; simp [expandFields, lookupField]
  | cons kv t ih =>
    intro k
    match kv with
    | (k0, v0) =>
      simp only [expandFields, lookupField]
      by_cases hk : k0 = k
      · simp [hk]
      · simp only [hk, if_false]
        exact ih k

theorem expandList_get :
    ∀ (xs : List Json) (N : Nat) (i : Nat),
      (expandList N xs).get? i = (xs.get? i).map (expand N) := by
  intro xs N
  induction xs with
  | nil => intro i; simp [expandList]
  | cons x t ih =>
    intro i
    cases i with
    | zero => simp [expandList]
    | succ i =>
      simp only [expandList, List.get?_cons_succ]
      exact ih i

theorem genFields_lookup :
    ∀ (l : List (String × Json)) (idx : PathIndex) (path : List PSeg)
      (st : Nat) (k : String),
      (lookupField l k = none ∧ lookupField (genFields idx path l st).1 k = none) ∨
      ∃ w st2, lookupField l k = some w ∧
        lookupField (genFields idx path l st).1 k =
          some (genWalk idx (some k) (path ++ [.key k]) w st2).1 := by
  intro l
  induction l with
  | nil => intro idx path st k; left; simp [lookupField, genFields]
  | cons kv t ih =>
    intro idx path st k
    match kv with
    | (k0, v0) =>
      simp only [genFields, lookupField]
      by_cases hk : k0 = k
      · right
        subst hk
        exact ⟨v0, st, by simp, by simp⟩
      · simp only [hk, if_false]
        exact ih idx path _ k

theorem genElems_get :
    ∀ (l : List Json) (idx : PathIndex) (key : Option String)
      (path : List PSeg) (st : Nat) (i : Nat),
      (l.get? i = none ∧ (genElems idx key path l st).1.get? i = none) ∨
      ∃ w st2, l.get? i = some w ∧
        (genElems idx key path l st).1.get? i =
          some (genWalk idx key path w st2).1 := by
  intro l
  induction l with
  | nil => intro idx key path st i; left; simp [genElems]
  | cons x t ih =>
    intro idx key path st i
    cases i with
    | zero =>
      right
      exact ⟨x, st, by simp, by simp [genElems]⟩
    | succ i =>
      simp only [genElems, List.get?_cons_succ]
      exact ih idx key path _ i

theorem widen_cons (s : Seg) (p : List Seg) :
    widen (s :: p) = (match s with | .key k => PSeg.key k | .idx _ => .star) :: widen p := rfl

theorem genWalk_enum :
    ∀ (S : Json) (idx : PathIndex) (N : Nat),
      scalarEnumsB idx = true →
      ∀ (key : Option String) (path : List PSeg) (st : Nat) (p : List Seg) (v : Json),
        getConcrete p (genWalk idx key path (expand N S) st).1 = some v →
        isScalarJ v = true →
        ∀ (c : Constraint) (l : List Json),
          lookupC idx (path ++ widen p) = some c →
          c.enumVals = some l →
          0 < l.length →
          v ∈ l := by
  intro S
  induction S using Json.ind2 with
  | hnull =>
    intro idx N hsc key path st p v hget hscal c l hlc he hlen
    simp only [expand, genWalk] at hget
    cases p with
    | nil =>
      simp only [getConcrete] at hget
      cases hget
      simp only [widen, List.map_nil, List.append_nil] at hlc
      rw [hlc]
      exact synthesizeC_enum_mem _ _ _ _ he hlen
    | cons s p2 =>
      rw [getConcrete_scalar _ s p2 (synthesizeC_scalar _ _ _
        (fun cc hcc l2 hl2 => scalarEnums_lookup idx path cc l2 hsc hcc hl2))] at hget
      cases hget
  | hbool b =>
    intro idx N hsc key path st p v hget hscal c l hlc he hlen
    simp only [expand, genWalk] at hget
    cases p with
    | nil =>
      simp only [getConcrete] at hget
      cases hget
      simp only [widen, List.map_nil, List.append_nil] at hlc
      rw [hlc]
      exact synthesizeC_enum_mem _ _ _ _ he hlen
    | cons s p2 =>
      rw [getConcrete_scalar _ s p2 (synthesizeC_scalar _ _ _
        (fun cc hcc l2 hl2 => scalarEnums_lookup idx path cc l2 hsc hcc hl2))] at hget
      cases hget
  | hnum q =>
    intro idx N hsc key path st p v hget hscal c l hlc he hlen
    simp only [expand, genWalk] at hget
    cases p with
    | nil =>
      simp only [getConcrete] at hget
      cases hget
      simp only [widen, List.map_nil, List.append_nil] at hlc
      rw [hlc]
      exact synthesizeC_enum_mem _ _ _ _ he hlen
    | cons s p2 =>
      rw [getConcrete_scalar _ s p2 (synthesizeC_scalar _ _ _
        (fun cc hcc l2 hl2 => scalarEnums_lookup idx path cc l2 hsc hcc hl2))] at hget
      cases hget
  | hstr s0 =>
    intro idx N hsc key path st p v hget hscal c l hlc he hlen
    simp only [expand, genWalk] at hget
    cases p with
    | nil =>
      simp only [getConcrete] at hget
      cases hget
      simp only [widen, List.map_nil, List.append_nil] at hlc
      rw [hlc]
      exact synthesizeC_enum_mem _ _ _ _ he hlen
    | cons s p2 =>
      rw [getConcrete_scalar _ s p2 (synthesizeC_scalar _ _ _
        (fun cc hcc l2 hl2 => scalarEnums_lookup idx path cc l2 hsc hcc hl2))] at hget
      cases hget
  | hobj fs ih =>
    intro idx N hsc key path st p v hget hscal c l hlc he hlen
    simp only [expand, genWalk] at hget
    cases p with
    | nil =>
      simp only [getConcrete] at hget
      cases hget
      simp [isScalarJ] at hscal
    | cons s p2 =>
      cases s with
      | idx i => simp [getConcrete] at hget
      | key k =>
        simp only [getConcrete] at hget
        rcases genFields_lookup (expandFields N fs) idx path st k with ⟨h1, h2⟩ | ⟨w, st2, h1, h2⟩
        · rw [h2] at hget; cases hget
        · rw [h2] at hget
          rw [expandFields_lookup] at h1
          cases hw0 : lookupField fs k with
          | none => rw [hw0] at h1; cases h1
          | some w0 =>
            rw [hw0] at h1
            simp only [Option.map_some'] at h1
            cases h1
            rw [widen_cons] at hlc
            simp only at hlc
            rw [show path ++ (PSeg.key k :: widen p2) = (path ++ [PSeg.key k]) ++ widen p2
              by simp] at hlc
            exact ih (k, w0) (lookupField_mem fs k w0 hw0) idx N hsc (some k)
              (path ++ [.key k]) st2 p2 v hget hscal c l hlc he hlen
  | harr xs ih =>
    intro idx N hsc key path st p v hget hscal c l hlc he hlen
    cases p with
    | nil =>
      cases xs with
      | nil =>
        simp only [expand, genWalk, getConcrete] at hget
        cases hget
        simp [isScalarJ] at hscal
      | cons x rest =>
        cases rest with
        | nil =>
          simp only [expand, genWalk, getConcrete] at hget
          cases hget
          simp [isScalarJ] at hscal
        | cons y rest2 =>
          simp only [expand, genWalk, getConcrete] at hget
          cases hget
          simp [isScalarJ] at hscal
    | cons s p2 =>
      cases s with
      | key k =>
        cases xs with
        | nil => simp [expand, genWalk, getConcrete] at hget
        | cons x rest =>
          cases rest with
          | nil => simp [expand, genWalk, getConcrete] at hget
          | cons y rest2 => simp [expand, genWalk, getConcrete] at hget
      | idx i =>
        rw [widen_cons] at hlc
        simp only at hlc
        rw [show path ++ (PSeg.star :: widen p2) = (path ++ [PSeg.star]) ++ widen p2
          by simp] at hlc
        cases xs with
        | nil =>
          simp only [expand, expandList, genWalk, getConcrete] at hget
          rcases genElems_get [] idx key (path ++ [.star]) st i with ⟨h1, h2⟩ | ⟨w, st2, h1, h2⟩
          · rw [h2] at hget; cases hget
          · simp at h1
        | cons x rest =>
          cases rest with
          | nil =>
            simp only [expand, genWalk, getConcrete] at hget
            rcases genElems_get (List.replicate N (expand N x)) idx key (path ++ [.star]) st i
              with ⟨h1, h2⟩ | ⟨w, st2, h1, h2⟩
            · rw [h2] at hget; cases hget
            · rw [h2] at hget
              have hw : w = expand N x := List.eq_of_mem_replicate (List.get?_mem h1)
              rw [hw] at hget
              exact ih x (by simp) idx N hsc key (path ++ [.star]) st2 p2 v hget hscal c l hlc he hlen
          | cons y rest2 =>
            simp only [expand, genWalk, getConcrete] at hget
            rcases genElems_get (expandList N (x :: y :: rest2)) idx key (path ++ [.star]) st i
              with ⟨h1, h2⟩ | ⟨w, st2, h1, h2⟩
            · rw [h2] at hget; cases hget
            · rw [h2] at hget
              rw [expandList_get] at h1
              cases hw0 : (x :: y :: rest2).get? i with
              | none => rw [hw0] at h1; cases h1
              | some w0 =>
                rw [hw0] at h1
                simp only [Option.map_some'] at h1
                cases h1
                exact ih w0 (List.get?_mem hw0) idx N hsc key (path ++ [.star]) st2 p2 v
                  hget hscal c l hlc he hlen

/-! ### Results: the claims -/

/-- Seeded generation ignores per-call entropy: with `options.seed` present
the run is a function of seed, skeleton and schema only. -/
theorem runGenerate_seeded (S : Json) (idx : PathIndex) (o : GenOptions) (k : Int)
    (e1 e2 : Nat) (h : o.seed = some k) :
    runGenerate S idx o e1 = runGenerate S idx o e2 := by
  simp [runGenerate, initState, h]

/-- The generated document of a successful generation (for evaluating
concrete runs inside closed statements). -/
def extractOk (e : Except GenError Json) : Json :=
  match e with
  | .ok j => j
  | .error _ => .null

/-- C1: for every skeleton document `S` and any generation options, the
document returned by `generate(S)` (no schema) mirrors `S`: identical
object key lists in the skeleton's own order, identical
array/object/scalar type-shape at every path; only scalar leaf values,
and the lengths of single-template arrays (where repetition was
requested), may differ. -/
theorem generate_shape_preservation :
    ∀ (S : Json) (opts : GenOptions) (e : Nat) (out : Json),
      runGenerate S [] opts e = .ok out → shapeFollows S out = true := by
  intro S opts e out h
  simp only [runGenerate] at h
  split at h
  · cases h
  · cases h
    exact genWalk_shape S _ none [] _

/-- C1 witness: the spec's example skeleton, seed 42, count 2. -/
theorem generate_shape_preservation_witness :
    shapeFollows
      (Json.obj [("user", Json.obj [("email", Json.str "x@example.com"), ("age", Json.num ⟨0, 1⟩)])])
      (extractOk (runGenerate
        (Json.obj [("user", Json.obj [("email", Json.str "x@example.com"), ("age", Json.num ⟨0, 1⟩)])])
        [] { seed := some 42, count := some 2 } 0)) = true :=
  generate_shape_preservation _ { seed := some 42, count := some 2 } 0 _ rfl

/-- C2: for every document `D`, `anonymize(D)` has identical structure to
`D` (same keys, same array lengths, same nesting), and its scalar leaf
values differ from `D` only at paths returned by `classify(D)`: every
leaf whose value changed lies on a classified sensitive path. -/
theorem anonymize_structural_identity :
    ∀ (D : Json) (e : Nat),
      shape (anonymize D e) = shape D ∧
      ∀ (p : List Seg) (v : Json),
        getConcrete p D = some v → isScalarJ v = true →
        getConcrete p (anonymize D e) ≠ some v →
        p ∈ classify D := by
  intro D e
  refine ⟨anonWalk_shape D none (lcgNext e), ?_⟩
  intro p v h1 h2 h3
  simpa [classify] using anonWalk_frame D none [] (lcgNext e) p v h1 h2 h3

/-- C2 witness: the spec's example document; the email leaf changes and its
path is classified, the structure is preserved. -/
theorem anonymize_structural_identity_witness :
    shape (anonymize (Json.obj [("email", Json.str "a@b.com"), ("count", Json.num ⟨3, 1⟩)]) 0) =
      shape (Json.obj [("email", Json.str "a@b.com"), ("count", Json.num ⟨3, 1⟩)]) ∧
    [Seg.key "email"] ∈ classify (Json.obj [("email", Json.str "a@b.com"), ("count", Json.num ⟨3, 1⟩)]) :=
  ⟨(anonymize_structural_identity (Json.obj [("email", Json.str "a@b.com"), ("count", Json.num ⟨3, 1⟩)]) 0).1,
   (anonymize_structural_identity (Json.obj [("email", Json.str "a@b.com"), ("count", Json.num ⟨3, 1⟩)]) 0).2
     [Seg.key "email"] (Json.str "a@b.com") (by decide) (by decide) (by decide)⟩

/-- C3 counterexample: with seed 0, the Electron `generate-data` handler
drops `--seed` (JavaScript truthiness), so the backend runs unseeded and
two calls with different per-call entropy produce different output — the
claim's determinism fails at the concrete seed `k = 0`. -/
theorem generate_seed_zero_counterexample :
    electronGenerate
      (Json.obj [("user", Json.obj [("email", Json.str "x@example.com"), ("age", Json.num ⟨0, 1⟩)])])
      [] none (some 0) none 0 ≠
    electronGenerate
      (Json.obj [("user", Json.obj [("email", Json.str "x@example.com"), ("age", Json.num ⟨0, 1⟩)])])
      [] none (some 0) none 1 := by
  decide

/-- C3 (amended): for every nonzero seed `k`, two calls through the
Electron handler are byte-identical, and any run whose options carry a
seed (as the direct API path does) is independent of per-call entropy. -/
theorem generate_determinism_nonzero_seed :
    ∀ (S : Json) (idx : PathIndex) (sw : Option String) (k : Int) (c : Option Int)
      (e1 e2 : Nat), k ≠ 0 →
      electronGenerate S idx sw (some k) c e1 = electronGenerate S idx sw (some k) c e2 ∧
      runGenerate S idx { seed := some k, count := c } e1 =
        runGenerate S idx { seed := some k, count := c } e2 := by
  intro S idx sw k c e1 e2 hk
  constructor
  · have hargs : argAfter "--seed" (electronGenerateArgs "skeleton.json" sw (some k) c) =
        some (intStr k) := by
      rcases sw with _ | sw <;> rcases c with _ | n <;>
        [skip; (by_cases hn : n = 0); skip; (by_cases hn : n = 0)] <;>
        simp_all [electronGenerateArgs, jsTruthyNum, argAfter, valueFlags]
    apply runGenerate_seeded _ _ _ (parseIntArg (intStr k))
    simp [electronGenerate, backendRun, hargs]
  · exact runGenerate_seeded S idx _ k e1 e2 rfl

/-- C3 witness: seed 42 through the Electron handler, two different
entropies. -/
theorem generate_determinism_nonzero_seed_witness :
    (42 : Int) ≠ 0 ∧
    (electronGenerate (Json.obj [("a", Json.null)]) [] none (some 42) none 0 =
       electronGenerate (Json.obj [("a", Json.null)]) [] none (some 42) none 99 ∧
     runGenerate (Json.obj [("a", Json.null)]) [] { seed := some 42, count := none } 0 =
       runGenerate (Json.obj [("a", Json.null)]) [] { seed := some 42, count := none } 99) :=
  ⟨by decide, generate_determinism_nonzero_seed (Json.obj [("a", Json.null)]) [] none 42 none 0 99 (by decide)⟩

/-- C4: whenever the schema index declares a non-empty scalar enum at a
path, every scalar value of the generated document at that path is one of
the enum's members. -/
theorem constraint_enum_satisfaction :
    ∀ (S : Json) (idx : PathIndex) (opts : GenOptions) (e : Nat) (out : Json)
      (p : List Seg) (v : Json) (c : Constraint) (l : List Json),
      scalarEnumsB idx = true →
      runGenerate S idx opts e = .ok out →
      getConcrete p out = some v →
      isScalarJ v = true →
      lookupC idx (widen p) = some c →
      c.enumVals = some l →
      0 < l.length →
      v ∈ l := by
  intro S idx opts e out p v c l hsc hrun hget hscal hlc he hlen
  simp only [runGenerate] at hrun
  split at hrun
  · cases hrun
  · cases hrun
    exact genWalk_enum S idx _ hsc none [] _ p v hget hscal c l (by simpa using hlc) he hlen

/-- C4 witness: an enum `["a", "b", "c"]` at path `status`; the generated
value at that path is a member of the enum. -/
theorem constraint_enum_satisfaction_witness :
    Json.str "a" ∈ [Json.str "a", Json.str "b", Json.str "c"] :=
  constraint_enum_satisfaction
    (Json.obj [("status", Json.str "x")])
    [([PSeg.key "status"], { enumVals := some [Json.str "a", Json.str "b", Json.str "c"] })]
    { seed := some 7 } 0
    (extractOk (runGenerate
      (Json.obj [("status", Json.str "x")])
      [([PSeg.key "status"], { enumVals := some [Json.str "a", Json.str "b", Json.str "c"] })]
      { seed := some 7 } 0))
    [Seg.key "status"] (Json.str "a")
    { enumVals := some [Json.str "a", Json.str "b", Json.str "c"] }
    [Json.str "a", Json.str "b", Json.str "c"]
    (by decide) rfl (by decide) (by decide) (by decide) rfl (by decide)

/-- C5 counterexample: a negative depth entered in the random-JSON view is
not rejected — the view silently substitutes the default 3 and the
operation succeeds, where the claim says invalid options are rejected at
the boundary before any work starts. -/
theorem negative_depth_defaulted_counterexample :
    sentDepth (.num (-4)) = 3 ∧
    (randomJsonFromView (.num (-4)) .blank .blank .blank 0).isOk = true := by
  constructor
  · decide
  · simp only [randomJsonFromView, generateRandomTop, viewRandomJsonRequest, Option.getD]
    rw [if_neg (by decide)]
    rfl

/-- C5 (amended): the random-JSON view never rejects a negative (or
non-numeric) depth/maxKeys/maxItems — it replaces them with the defaults
3/5/5, so the request it sends always carries positive values and the
operation succeeds; a negative `count` reaching the generate operation is
rejected at the boundary as `InvalidOptions` before any walk starts, so
the only user-visible failures remain invalid input or out-of-range
options, never a mid-generation crash. -/
theorem invalid_options_boundary_amended :
    ∀ (dr kr ir sr : RawInput) (e : Nat) (S : Json) (idx : PathIndex)
      (s : Option Int) (c : Int), c < 0 →
      0 < sentDepth dr ∧ 0 < sentMaxKeys kr ∧ 0 < sentMaxItems ir ∧
      (randomJsonFromView dr kr ir sr e).isOk = true ∧
      runGenerate S idx { seed := s, count := some c } e = .error .invalidOptions := by
  intro dr kr ir sr e S idx s c hc
  have hd : 0 < sentDepth dr := by
    cases dr with
    | blank => decide
    | nan => decide
    | num n =>
      simp only [sentDepth, numOrDefault]
      split <;> omega
  have hk : 0 < sentMaxKeys kr := by
    cases kr with
    | blank => decide
    | nan => decide
    | num n =>
      simp only [sentMaxKeys, numOrDefault]
      split <;> omega
  have hi : 0 < sentMaxItems ir := by
    cases ir with
    | blank => decide
    | nan => decide
    | num n =>
      simp only [sentMaxItems, numOrDefault]
      split <;> omega
  refine ⟨hd, hk, hi, ?_, ?_⟩
  · simp only [randomJsonFromView, generateRandomTop, viewRandomJsonRequest, Option.getD]
    rw [if_neg]
    · rfl
    · simp only [Bool.or_eq_true, decide_eq_true_eq]
      push_neg
      omega
  · simp only [runGenerate]
    rw [if_pos hc]

/-- C5 witness: depth `2` typed in the view succeeds; `count = -1` at the
generate boundary is rejected before any work. -/
theorem invalid_options_boundary_amended_witness :
    (-1 : Int) < 0 ∧
    (0 < sentDepth (.num 2) ∧ 0 < sentMaxKeys .blank ∧ 0 < sentMaxItems .blank ∧
     (randomJsonFromView (.num 2) .blank .blank .blank 0).isOk = true ∧
     runGenerate Json.null [] { seed := none, count := some (-1) } 0 =
       .error .invalidOptions) :=
  ⟨by decide,
   invalid_options_boundary_amended (.num 2) .blank .blank .blank 0 Json.null [] none (-1) (by decide)⟩

/-- C6: `analyze` reports the classifier's sensitive paths rendered in
dot/bracket notation, and `totalFields` is the total number of scalar
leaves of the document (not the number of sensitive fields); on
`{"name": "John Doe", "id": 7}` it returns `sensitiveFields = ["name"]`
and `totalFields = 2`. -/
theorem analyze_output_specification :
    (∀ D : Json, (analyze D).totalFields = countLeaves D) ∧
    (∀ D : Json, (analyze D).sensitiveFields = (classify D).map renderPath) ∧
    analyze (Json.obj [("name", Json.str "John Doe"), ("id", Json.num ⟨7, 1⟩)]) =
      { success := true, sensitiveFields := ["name"], totalFields := 2, error := none } := by
  refine ⟨fun D => ?_, fun D => ?_, by decide⟩
  · simp [analyze, analyzeWalk_spec, classify]
  · simp [analyze, analyzeWalk_spec, classify]

/-- C7: random generation is total (every `genRandomVal` call is a
terminating function by construction) and the nesting level of the
produced document never exceeds the depth parameter; at depth 0 only
scalar leaves are emitted. -/
theorem bounded_random_generation :
    (∀ (mK mI d st : Nat), docDepth (genRandomVal mK mI d st).1 ≤ d) ∧
    (∀ (o : RandomJsonOptions) (e : Nat) (out : Json),
      generateRandomTop o e = .ok out → docDepth out ≤ (o.depth.getD 3).toNat) := by
  refine ⟨fun mK mI d st => genRandomVal_depth d mK mI st, ?_⟩
  intro o e out h
  simp only [generateRandomTop] at h
  split at h
  · cases h
  · cases h
    exact genRandomVal_depth _ _ _ _

/-- C7 witness: a depth-2 request is generated with nesting level at
most 2. -/
theorem bounded_random_generation_witness :
    docDepth (extractOk (generateRandomTop { depth := some 2 } 0)) ≤ 2 :=
  bounded_random_generation.2 { depth := some 2 } 0 _ rfl

/-- C8: the Electron `generate-data` handler appends `--seed` only when the
seed is truthy, so a request with seed 0 produces the same command line as
a request with no seed at all, the backend is invoked unseeded, and the
resulting generation depends on per-call entropy (not reproducible). -/
theorem electron_seed_zero_unseeded :
    ∀ (sp : String) (sw : Option String) (c : Option Int),
      electronGenerateArgs sp sw (some 0) c = electronGenerateArgs sp sw none c ∧
      argAfter "--seed" (electronGenerateArgs sp sw (some 0) c) = none ∧
      ∃ e1 e2 : Nat,
        electronGenerate (Json.obj [("a", Json.null)]) [] none (some 0) none e1 ≠
        electronGenerate (Json.obj [("a", Json.null)]) [] none (some 0) none e2 := by
  intro sp sw c
  refine ⟨by simp [electronGenerateArgs, jsTruthyNum], ?_, 0, 1, by decide⟩
  rcases sw with _ | sw <;> rcases c with _ | n <;>
    [skip; (by_cases hn : n = 0); skip; (by_cases hn : n = 0)] <;>
    simp_all [electronGenerateArgs, jsTruthyNum, argAfter, valueFlags]

/-- C9: `inferSchema` on an array returns type `array` with `items`
inferred from the first element alone (`{}` for an empty array); elements
after the first never influence the schema. -/
theorem inferSchema_array_first_element :
    ∀ (x : Json) (xs ys : List Json),
      inferSchema (.arr []) = .obj [("type", .str "array"), ("items", .obj [])] ∧
      inferSchema (.arr (x :: xs)) = .obj [("type", .str "array"), ("items", inferSchema x)] ∧
      inferSchema (.arr (x :: xs)) = inferSchema (.arr (x :: ys)) := by
  intro x xs ys
  exact ⟨rfl, by simp [inferSchema], by simp [inferSchema]⟩

/-- C10 counterexample: a 200 response whose body is `{"error": ""}` has no
`success` field together with an `error` field, yet `request` resolves
with that payload instead of throwing — the truthiness test
`data.success === undefined && data.error` does not fire on a falsy
`error` value. -/
theorem request_falsy_error_counterexample :
    getField (Json.obj [("error", Json.str "")]) "success" = none ∧
    getField (Json.obj [("error", Json.str "")]) "error" ≠ none ∧
    apiRequest "/api/x" 200 (.parsed (Json.obj [("error", Json.str "")])) =
      .ok (Json.obj [("error", Json.str "")]) := by
  refine ⟨rfl, by decide, by decide⟩

/-- C10 (amended): `request` never resolves with a failure payload in the
truthy sense: every returned payload comes from an ok-status response,
does not have `success === false`, and does not combine a missing
`success` field with a *truthy* `error` field (a falsy `error` such as
the empty string is returned to the caller). -/
theorem request_ok_inversion_amended :
    ∀ (ep : String) (status : Nat) (body : BodyText) (d : Json),
      apiRequest ep status body = .ok d →
      respOk status = true ∧
      getField d "success" ≠ some (.bool false) ∧
      ¬(getField d "success" = none ∧ optTruthy (getField d "error") = true) := by
  intro ep status body d h
  simp only [apiRequest] at h
  split at h
  · cases h
  · split at h
    · cases h
    · split at h
      · cases h
      · cases body with
        | empty =>
          dsimp only at h
          by_cases hC : (respOk status && status == 200) = true
          · rw [if_pos hC] at h; cases h
          · rw [if_neg hC] at h; cases h
        | invalid raw =>
          dsimp only at h
          cases h
        | parsed data =>
          dsimp only at h
          by_cases h1 : respOk status = false
          · rw [if_pos h1] at h; cases h
          · rw [if_neg h1] at h
            by_cases h2 : data = Json.null
            · rw [if_pos h2] at h; cases h
            · rw [if_neg h2] at h
              by_cases h3 : (getField data "success" = some (Json.bool false) ∨
                  (getField data "success" = none ∧ optTruthy (getField data "error") = true))
              · rw [if_pos h3] at h; cases h
              · rw [if_neg h3] at h
                cases h
                refine ⟨?_, fun ha => h3 (Or.inl ha), fun hbc => h3 (Or.inr hbc)⟩
                revert h1
                cases respOk status <;> simp

/-- C10 witness: a successful `{"success": true}` response is returned and
satisfies the inverted conditions. -/
theorem request_ok_inversion_amended_witness :
    respOk 200 = true ∧
    getField (Json.obj [("success", Json.bool true)]) "success" ≠ some (.bool false) ∧
    ¬(getField (Json.obj [("success", Json.bool true)]) "success" = none ∧
      optTruthy (getField (Json.obj [("success", Json.bool true)]) "error") = true) :=
  request_ok_inversion_amended "/api/analyze" 200
    (.parsed (Json.obj [("success", Json.bool true)]))
    (Json.obj [("success", Json.bool true)]) (by decide)
